import Mathlib

/-!
Verification development for the graph-ui core (Juggl): a shallow embedding of
the Obsidian data store (`ObsidianStore` in the store module), the visualization
merge/expand/refresh layer (`visualization.ts`), and the spec-modelled
collaborators they call (juggl-api's `VizId`/`parseRefCache`/`nodeFromFile`,
the host metadata cache, and the merge utility of `new-node-positioning.ts`).

Pure TypeScript functions become Lean functions; JavaScript insertion-ordered
records become association lists; cytoscape's live graph becomes an explicit
`Core` state threaded through the operations.
-/

/-- Identifier of a graph node: a (logical-name, origin-store-tag) pair.
Mirrors juggl-api's `VizId`. -/
structure VizId where
  id : String
  storeId : String
deriving DecidableEq, Repr

/-- Modelled from the spec: `VizId.toId` (juggl-api, not among the sources).
"Node identifier — a pair (logical-name, origin-store-tag), serialized to a
single string token; identical (name, store) always serializes identically."
Serialized here as the store tag, a space, then the name. -/
def VizId.toId (v : VizId) : String := v.storeId ++ " " ++ v.id

/-- Modelled from the spec: `VizId.fromNode` (juggl-api, not among the
sources): recovers the (name, store) pair from a node's serialized id token.
The store tag is the text before the first space, the name the rest. -/
def VizId.fromId (s : String) : VizId :=
  ⟨String.mk ((s.data.dropWhile (fun c => c ≠ ' ')).drop 1),
   String.mk (s.data.takeWhile (fun c => c ≠ ' '))⟩

/-- A file of the host vault (`TFile`): canonical name, path, extension. -/
structure TFile where
  name : String
  path : String
  extension : String
deriving DecidableEq, Repr

/-- A reference found in a document body (`ReferenceCache`). The real record
carries a character span; `parseRefCache` (juggl-api) slices the surrounding
text as context and parses an optional typed-link label. The model carries
the sliced context and parsed label directly. -/
structure ReferenceCache where
  link : String
  typed : Option String
  context : String
deriving DecidableEq, Repr

/-- A front-matter declared reference (`FrontmatterLinkCache`): raw link text
plus the dotted key under which it was declared. -/
structure FrontmatterLinkCache where
  link : String
  key : String
deriving DecidableEq, Repr

/-- A reference handed to the `iterLinks` callback: either a body reference
(callback flag `true`) or a front-matter link (flag `false`). -/
inductive Ref where
  | body (r : ReferenceCache)
  | fm (l : FrontmatterLinkCache)
deriving DecidableEq, Repr

/-- Raw link text of a reference (the `.link` field both variants carry). -/
def Ref.link : Ref → String
  | .body r => r.link
  | .fm l => l.link

/-- Cached structural metadata of one file (`CachedMetadata`): body references
and front-matter links. -/
structure CachedMetadata where
  refs : List ReferenceCache
  frontmatterLinks : List FrontmatterLinkCache
deriving DecidableEq, Repr

/-- `iterLinks` of `ObsidianStore`: first every body reference (via
`iterateCacheRefs`), then every front-matter link. -/
def iterLinks (cache : CachedMetadata) : List Ref :=
  cache.refs.map Ref.body ++ cache.frontmatterLinks.map Ref.fm

/-- View settings consumed by the store (`mergeEdges`) and the plugin
(typed-link marker). -/
structure Settings where
  mergeEdges : Bool
  typedLinkPfx : String
deriving DecidableEq, Repr

/-- The host state the store reads: the vault's files, the per-path structural
metadata cache, the corpus-wide forward-link index (`resolvedLinks`), and the
per-path file contents (already split into lines, as `createEdges` does). -/
structure Env where
  files : List TFile
  fileCaches : List (String × CachedMetadata)
  resolvedLinks : List (String × List String)
  contents : List (String × List String)

/-- JavaScript `String.prototype.split` with a single-character separator,
modelled on the character list. -/
def splitOnChar (sep : Char) : List Char → List (List Char)
  | [] => [[]]
  | c :: rest =>
    let r := splitOnChar sep rest
    if c = sep then [] :: r
    else
      match r with
      | [] => [[c]]
      | w :: ws => (c :: w) :: ws

/-- `key.split(".")` of the front-matter branch. -/
def splitKey (key : String) : List String := (splitOnChar '.' key.data).map String.mk

/-- JavaScript `Array.prototype.join` with an explicit separator string
(`join()` defaults the separator to a comma). -/
def joinWith (sep : String) : List String → String
  | [] => ""
  | [x] => x
  | x :: y :: xs => x ++ sep ++ joinWith sep (y :: xs)

/-- JavaScript single-character global replacement, modelled on the
character list. -/
def replaceChar (a b : Char) (s : String) : String :=
  String.mk (s.data.map (fun c => if c = a then b else c))

/-- Obsidian's `getLinkpath`: the link text up to a `#` subpath marker. -/
def getLinkpath (link : String) : String :=
  String.mk (link.data.takeWhile (fun c => c ≠ '#'))

/-- Modelled from the spec: the host's `metadataCache.getFirstLinkpathDest`
(Obsidian, not among the sources). "Resolve a link-like path to a concrete
document identity, relative to a source path, returning none if unresolved."
Modelled as the first vault file whose canonical name equals the link path. -/
def Env.getFirstLinkpathDest (env : Env) (path : String) (_sourcePath : String) : Option TFile :=
  env.files.find? (fun f => f.name == path)

/-- The host's `metadataCache.getFileCache`: per-path structural metadata,
none when the file is not yet indexed. -/
def Env.getFileCache (env : Env) (file : TFile) : Option CachedMetadata :=
  (env.fileCaches.find? (fun p => p.1 == file.path)).map Prod.snd

/-- The host's `vault.cachedRead` followed by `split('\n')` as done at the top
of `createEdges`. -/
def Env.cachedRead (env : Env) (file : TFile) : List String :=
  ((env.contents.find? (fun p => p.1 == file.path)).map Prod.snd).getD []

/-- The host's `vault.getAbstractFileByPath`, used for back-link discovery. -/
def getAbstractFileByPath (env : Env) (path : String) : Option TFile :=
  env.files.find? (fun f => f.path == path)

/-- `ObsidianStore.storeId()`: the store tag of the document corpus. -/
def obsidianStoreId : String := "core"

/-- `ObsidianStore.getOtherId`: resolve a reference to the id of the node at
its far end — the resolved file's name when the link resolves, else the
normalized link path as a dangling placeholder. -/
def getOtherId (env : Env) (ref : Ref) (sourcePath : String) : VizId :=
  let path := getLinkpath ref.link
  match env.getFirstLinkpathDest path sourcePath with
  | some file => ⟨file.name, obsidianStoreId⟩
  | none => ⟨path, obsidianStoreId⟩

/-- `ObsidianStore.getFile`: look the node id up in the vault. -/
def getFile (env : Env) (nodeId : VizId) : Option TFile :=
  env.getFirstLinkpathDest nodeId.id ""

/-- `transformEdgeLabel`: render every underscore of a type label as a space
for display (`label.replace(/_/g, ' ')`). -/
def transformEdgeLabel (label : String) : String := replaceChar '_' ' ' label

/-- The `data` record of a cytoscape `EdgeDefinition` as built by the store. -/
structure EdgeData where
  id : String
  source : String
  target : String
  context : String
  edgeCount : Nat
  type? : Option String
deriving DecidableEq, Repr

/-- Cytoscape edge classes are either a single space-separated string (what
`parseRefCache` produces, compared against `' inline'` by the merge phase) or
an array of class tokens (what the front-matter branch produces). -/
inductive EdgeClasses where
  | str (s : String)
  | arr (l : List String)
deriving DecidableEq, Repr

/-- A cytoscape `EdgeDefinition` as produced by `createEdges`. -/
structure EdgeDefinition where
  data : EdgeData
  classes : EdgeClasses
deriving DecidableEq, Repr

/-- Modelled from the spec: `parseRefCache` (juggl-api, not among the
sources). "references embedded in document body, each carrying a character
span used to slice surrounding text as display context"; untyped inline edges
carry the class string `" inline"` (the exact token the merge phase compares
against), typed body links carry their declared label. The reference record
carries its pre-sliced context and pre-parsed label, so the raw content lines
are unused here. -/
def parseRefCache (ref : ReferenceCache) (_content : List String)
    (id srcId otherId : String) (_typedLinkPfx : String) : EdgeDefinition :=
  match ref.typed with
  | some t =>
    { data := { id := id, source := srcId, target := otherId, context := ref.context,
                edgeCount := 1, type? := some t },
      classes := .arr [t, "type-" ++ t] }
  | none =>
    { data := { id := id, source := srcId, target := otherId, context := ref.context,
                edgeCount := 1, type? := none },
      classes := .str " inline" }

/-- The per-reference edge construction inside `createEdges`: body references
go through `parseRefCache` and get their display label underscore-transformed;
front-matter links derive their type from the dotted key — all segments but
the last, joined by `Array.prototype.join`'s default comma, when the key has
more than one segment, else the key itself — keep the untransformed token for
the CSS classes and the underscore-transformed one for display. -/
def buildRefEdge (content : List String) (settings : Settings)
    (srcId otherId id : String) : Ref → EdgeDefinition
  | .body ref =>
    let edge := parseRefCache ref content id srcId otherId settings.typedLinkPfx
    match edge.data.type? with
    | some t => { edge with data := { edge.data with type? := some (transformEdgeLabel t) } }
    | none => edge
  | .fm link =>
    let split := splitKey link.key
    let type := if split.length > 1 then joinWith "," split.dropLast else link.key
    let displayType := transformEdgeLabel type
    { data := { id := id, source := srcId, target := otherId, context := "",
                edgeCount := 1, type? := some displayType },
      classes := .arr [type, "type-" ++ type, "type-" ++ replaceChar ' ' '-' type] }

/-- The insertion-ordered record `edges : Record<string, EdgeDefinition[]>` of
`createEdges`, keyed by `srcId ++ "->" ++ otherId`. -/
abbrev EdgeGroups := List (String × List EdgeDefinition)

/-- `edges[edgeId]`, or the empty list when the key is absent. -/
def lookupGroup (edges : EdgeGroups) (key : String) : List EdgeDefinition :=
  ((edges.find? (fun p => p.1 == key)).map Prod.snd).getD []

/-- Append an edge to its key's list, creating the key at the end of the
record when absent — JavaScript object insertion-order semantics. -/
def pushEdge (edges : EdgeGroups) (key : String) (e : EdgeDefinition) : EdgeGroups :=
  match edges with
  | [] => [(key, [e])]
  | (k, es) :: rest =>
    if k == key then (k, es ++ [e]) :: rest else (k, es) :: pushEdge rest key e

/-- The link-iteration loop of `createEdges`: for each reference whose
resolved target is among `toNodes`, build an edge whose id is the pair key
followed by the within-pair occurrence count, and record it under the key. -/
def createEdgesLoop (env : Env) (settings : Settings) (srcPath srcId : String)
    (toNodes : List String) (content : List String) :
    List Ref → EdgeGroups → EdgeGroups
  | [], edges => edges
  | ref :: rest, edges =>
    let otherId := (getOtherId env ref srcPath).toId
    if toNodes.contains otherId then
      let edgeId := srcId ++ "->" ++ otherId
      let count := (lookupGroup edges edgeId).length + 1
      let id := edgeId ++ toString count
      let edge := buildRefEdge content settings srcId otherId id ref
      createEdgesLoop env settings srcPath srcId toNodes content rest (pushEdge edges edgeId edge)
    else
      createEdgesLoop env settings srcPath srcId toNodes content rest edges

/-- The separator the merge phase splices between two merged inline contexts
(the template literal of the store module, verbatim). -/
def mergeSep : String := "\n                \n---\n\n"

/-- The merge phase's test `edge.classes === ' inline'`. -/
def isInline (e : EdgeDefinition) : Bool := e.classes == .str " inline"

/-- The inner loop of the merge phase over one key's edge list: non-inline
edges are pushed through unchanged; the first inline edge becomes the
accumulator and every later inline edge appends its context after the
separator and bumps the count. -/
def mergeGroupLoop : List EdgeDefinition → Option (EdgeDefinition × Nat) →
    List EdgeDefinition → List EdgeDefinition × Option (EdgeDefinition × Nat)
  | [], inl, out => (out, inl)
  | e :: rest, inl, out =>
    if isInline e then
      match inl with
      | some (ie, n) =>
        mergeGroupLoop rest
          (some ({ ie with data := { ie.data with
                     context := ie.data.context ++ mergeSep ++ e.data.context } }, n + 1))
          out
      | none => mergeGroupLoop rest (some (e, 1)) out
    else
      mergeGroupLoop rest inl (out ++ [e])

/-- One key's contribution to `returnEdges` under merge mode: the pass-through
edges, then the merged inline edge (if any) with its final count. -/
def mergeGroup (es : List EdgeDefinition) : List EdgeDefinition :=
  match mergeGroupLoop es none [] with
  | (out, some (ie, n)) => out ++ [{ ie with data := { ie.data with edgeCount := n } }]
  | (out, none) => out

/-- `ObsidianStore.createEdges`: no edges for non-markdown or unindexed files;
otherwise group the reference-derived edges by (source, target) pair and
either merge each group's inline edges (merge mode) or return every edge. -/
def createEdges (env : Env) (settings : Settings) (srcFile : TFile)
    (srcId : String) (toNodes : List String) : List EdgeDefinition :=
  if srcFile.extension ≠ "md" then []
  else
    match env.getFileCache srcFile with
    | none => []
    | some cache =>
      let content := env.cachedRead srcFile
      let edges := createEdgesLoop env settings srcFile.path srcId toNodes content
        (iterLinks cache) []
      if settings.mergeEdges then
        (edges.map (fun p => mergeGroup p.2)).flatten
      else
        (edges.map Prod.snd).flatten


/-- A cytoscape `NodeDefinition` as the stores produce it: its graph id plus
display data. -/
structure NodeDefinition where
  id : String
  name : String
deriving DecidableEq, Repr

/-- Modelled from the spec: `nodeFromFile` (juggl-api, not among the
sources): the node descriptor of a corpus file, whose graph id is the
serialized (file name, core store) identifier. -/
def nodeFromFile (file : TFile) : NodeDefinition :=
  ⟨(VizId.mk file.name obsidianStoreId).toId, file.name⟩

/-- Modelled from the spec: `nodeDangling` (juggl-api, not among the
sources): the placeholder descriptor of an unresolved link path, which
"still participates in the graph so the user sees unresolved links". -/
def nodeDangling (path : String) : NodeDefinition :=
  ⟨(VizId.mk path obsidianStoreId).toId, path⟩

/-- `ObsidianStore.getNodeFromLink`: the node at a reference's far end — a
concrete file node when the link resolves, a dangling placeholder else. -/
def getNodeFromLink (env : Env) (ref : Ref) (sourcePath : String) : NodeDefinition :=
  let path := getLinkpath ref.link
  match env.getFirstLinkpathDest path sourcePath with
  | some file => nodeFromFile file
  | none => nodeDangling path

/-- The insertion-ordered record `nodes : Record<string, NodeDefinition>` of
`getNeighbourhood`. -/
abbrev NodeRec := List (String × NodeDefinition)

/-- JavaScript's `id in nodes` membership test. -/
def recHas (r : NodeRec) (id : String) : Bool := r.any (fun p => p.1 == id)

/-- JavaScript record assignment: update the value in place when the key
exists, append the key at the end when absent. -/
def recSet (r : NodeRec) (id : String) (n : NodeDefinition) : NodeRec :=
  if recHas r id then r.map (fun p => if p.1 == id then (p.1, n) else p)
  else r ++ [(id, n)]

/-- The back-link scan of `fillWithBacklinks`: every corpus document whose
forward links include this file's path contributes its node, keyed by the
serialized (file name, core store) identifier, inserted only when absent. -/
def backlinkLoop (env : Env) (filePath : String) :
    List (String × List String) → NodeRec → NodeRec
  | [], ns => ns
  | p :: rest, ns =>
    backlinkLoop env filePath rest
      (if p.2.contains filePath then
        match getAbstractFileByPath env p.1 with
        | some f =>
          let id := (VizId.mk f.name obsidianStoreId).toId
          if recHas ns id then ns else ns ++ [(id, nodeFromFile f)]
        | none => ns
      else ns)

/-- `ObsidianStore.fillWithBacklinks`: only for core-store ids with an
existing file; scans the full forward-link index. -/
def fillWithBacklinks (env : Env) (nodes : NodeRec) (nodeId : VizId) : NodeRec :=
  if nodeId.storeId == "core" then
    match getFile env nodeId with
    | none => nodes
    | some file => backlinkLoop env file.path env.resolvedLinks nodes
  else nodes

/-- The `promiseNodes` collection loop of `getNeighbourhood`: for each
reference whose resolved id is not yet a node, record the resolved node under
that id (JavaScript assignment semantics on the promise record). -/
def promiseLoop (env : Env) (filePath : String) (nodes : NodeRec) :
    List Ref → NodeRec → NodeRec
  | [], pn => pn
  | ref :: rest, pn =>
    let id := (getOtherId env ref filePath).toId
    promiseLoop env filePath nodes rest
      (if recHas nodes id then pn else recSet pn id (getNodeFromLink env ref filePath))

/-- The loop awaiting `promiseNodes`: each collected node is inserted unless
its id has appeared in the meantime. -/
def addPromiseNodes : List (String × NodeDefinition) → NodeRec → NodeRec
  | [], ns => ns
  | (id, n) :: rest, ns =>
    addPromiseNodes rest (if recHas ns id then ns else ns ++ [(id, n)])

/-- One requested id's contribution in `getNeighbourhood`: skip foreign-store
ids, missing files and unindexed files; otherwise materialize the node itself,
its reference targets, and its back-links, each id at most once. -/
def processNeighbourNode (env : Env) (nodeId : VizId) (nodes : NodeRec) : NodeRec :=
  if nodeId.storeId == obsidianStoreId then
    match getFile env nodeId with
    | none => nodes
    | some file =>
      match env.getFileCache file with
      | none => nodes
      | some cache =>
        let nodes1 :=
          if recHas nodes nodeId.toId then nodes
          else nodes ++ [(nodeId.toId, nodeFromFile file)]
        let promiseNodes := promiseLoop env file.path nodes1 (iterLinks cache) []
        let nodes2 := addPromiseNodes promiseNodes nodes1
        fillWithBacklinks env nodes2 nodeId
  else nodes

/-- The outer loop of `getNeighbourhood` over the requested ids. -/
def neighbourhoodLoop (env : Env) : List VizId → NodeRec → NodeRec
  | [], ns => ns
  | i :: rest, ns => neighbourhoodLoop env rest (processNeighbourNode env i ns)

/-- `ObsidianStore.getNeighbourhood`: the values of the accumulated record,
in insertion order. -/
def getNeighbourhood (env : Env) (nodeIds : List VizId) : List NodeDefinition :=
  (neighbourhoodLoop env nodeIds []).map Prod.snd

/-- The per-node body shared by both loops of `connectNodes`: parse the node's
id, keep only core-store ids whose file exists, and build that file's edges
into the given target set. -/
def connectNodesFrom (env : Env) (settings : Settings) (targets : List String)
    (nodeIdStr : String) : List EdgeDefinition :=
  let id := VizId.fromId nodeIdStr
  if id.storeId == obsidianStoreId then
    match getFile env id with
    | some file => createEdges env settings file id.toId targets
    | none => []
  else []

/-- `ObsidianStore.connectNodes`: edges from each new node into all nodes,
then edges from every node outside the new set into the new nodes only
(cytoscape `difference` keeps the elements of the first collection absent
from the second, keyed by id). -/
def connectNodes (env : Env) (settings : Settings) (allNodes newNodes : List String) :
    List EdgeDefinition :=
  (newNodes.map (connectNodesFrom env settings allNodes)).flatten ++
  ((allNodes.filter (fun n => !newNodes.contains n)).map
      (connectNodesFrom env settings newNodes)).flatten

/-- An element of the live cytoscape graph: a node or an edge, with its id,
endpoints (edges), class list, data fields and position. -/
structure CyElement where
  isNode : Bool
  id : String
  source : String := ""
  target : String := ""
  classes : List String := []
  context : String := ""
  edgeCount : Nat := 1
  type? : Option String := none
  linkedNodeIds : List String := []
  pos : Int × Int := (0, 0)
deriving DecidableEq, Repr

/-- The live graph (cytoscape `Core`): one id-keyed element collection. -/
structure Core where
  elements : List CyElement
deriving DecidableEq, Repr

/-- The `IMergedToGraph` result: all elements of the batch as now present,
and the subset that was newly inserted. -/
structure IMergedToGraph where
  merged : List CyElement
  added : List CyElement
deriving DecidableEq, Repr

/-- The element definition of an edge descriptor: class strings are split on
spaces, class arrays taken as given. -/
def classesToList : EdgeClasses → List String
  | .str s => ((splitOnChar ' ' s.data).map String.mk).filter (fun c => c ≠ "")
  | .arr l => l

/-- Conversion of an `EdgeDefinition` to a live graph element. -/
def edgeToElement (e : EdgeDefinition) : CyElement :=
  { isNode := false, id := e.data.id, source := e.data.source, target := e.data.target,
    classes := classesToList e.classes, context := e.data.context,
    edgeCount := e.data.edgeCount, type? := e.data.type? }

/-- Conversion of a `NodeDefinition` to a live graph element, with the
`linkedNodeIds` positioning hint the refresh path attaches. -/
def nodeToElement (n : NodeDefinition) (linked : List String) : CyElement :=
  { isNode := true, id := n.id, linkedNodeIds := linked }

/-- The element-by-element loop of the merge utility. -/
def mergeLoop (g : Core) (r : IMergedToGraph) : List CyElement → Core × IMergedToGraph
  | [] => (g, r)
  | el :: rest =>
    match g.elements.find? (fun x => x.id == el.id) with
    | some old => mergeLoop g { r with merged := r.merged ++ [old] } rest
    | none =>
      mergeLoop ⟨g.elements ++ [el]⟩ ⟨r.merged ++ [el], r.added ++ [el]⟩ rest

/-- Modelled from the spec: the merge utility of `new-node-positioning.ts`,
which is not among the sources. "every element is keyed by its id; if an
element with that id already exists in the live graph, it is left untouched
(no position reset, no data overwrite) and is reported only in `merged`; if
absent, it is inserted and reported in both `merged` and `added`." Batching
and the positioning callback have no effect on the resulting element set and
are not modelled. -/
def mergeToGraphUtil (g : Core) (elements : List CyElement) : Core × IMergedToGraph :=
  mergeLoop g ⟨[], []⟩ elements

/-- `Juggl.mergeToGraph` of `visualization.ts`: delegate to the merge utility,
then report whether the `newNodesAdded` event fired (it does exactly when the
added set contains nodes). -/
def Juggl.mergeToGraph (g : Core) (elements : List CyElement) :
    Core × IMergedToGraph × Bool :=
  let r := mergeToGraphUtil g elements
  (r.1, r.2, decide ((r.2.added.filter (fun e => e.isNode)).length > 0))

/-- `CLASS_EXPANDED` of the constants module (not among the sources; the spec
names the state flag "expanded"). -/
def CLASS_EXPANDED : String := "expanded"

/-- `CLASS_PROTECTED` of the constants module (not among the sources; the
spec names the state flag "protected"). -/
def CLASS_PROTECTED : String := "protected"

/-- Collection `addClass`: add the class to every element of the collection
(here: every element with one of the given ids) that lacks it. -/
def Core.addClass (g : Core) (ids : List String) (cls : String) : Core :=
  ⟨g.elements.map (fun e =>
    if ids.contains e.id then
      { e with classes := if e.classes.contains cls then e.classes else e.classes ++ [cls] }
    else e)⟩

/-- `viz.nodes()`: the ids of the node elements. -/
def Core.nodeIds (g : Core) : List String :=
  (g.elements.filter (fun e => e.isNode)).map (fun e => e.id)

/-- `viz.$id(...)`: the collection of elements with the given id. -/
def Core.idCollection (g : Core) (id : String) : List CyElement :=
  g.elements.filter (fun e => e.id == id)

/-- Collection `connectedEdges`: the edges incident to any of the given
node ids. -/
def Core.connectedEdges (g : Core) (nodeIds : List String) : List CyElement :=
  g.elements.filter (fun e =>
    !e.isNode && (nodeIds.contains e.source || nodeIds.contains e.target))

/-- Collection `remove`: drop the elements with the given ids; removing a
node also removes its incident edges (cytoscape cascade). -/
def Core.removeByIds (g : Core) (ids : List String) : Core :=
  let removedNodeIds := ((g.elements.filter (fun e => e.isNode && ids.contains e.id)).map
    (fun e => e.id))
  ⟨g.elements.filter (fun e =>
    !ids.contains e.id &&
    (e.isNode || (!removedNodeIds.contains e.source && !removedNodeIds.contains e.target)))⟩

/-- Effect counters of one `expand` call: neighbourhood fetches, merge calls,
class-addition calls and whether the `expand` event fired. -/
structure ExpandTrace where
  neighbourhoodCalls : Nat
  mergeCalls : Nat
  classAddCalls : Nat
  expandTriggered : Bool
deriving DecidableEq, Repr

/-- `Juggl.buildEdges`: every store (here: the one core store) connects the
graph's nodes to the new nodes. -/
def buildEdges (env : Env) (settings : Settings) (g : Core) (newNodes : List String) :
    List EdgeDefinition :=
  connectNodes env settings g.nodeIds newNodes

/-- `Juggl.expand` of `visualization.ts`: an empty collection returns null at
once with no effect; otherwise mark the collection expanded and protected,
fetch its neighbourhood, merge the nodes, build and merge the edges, fire the
`expand` event and return the edge merge result. -/
def expand (env : Env) (settings : Settings) (g : Core) (toExpand : List String)
    (_batch _triggerGraphChanged : Bool) :
    Option IMergedToGraph × Core × ExpandTrace :=
  if toExpand.length == 0 then
    (none, g, ⟨0, 0, 0, false⟩)
  else
    let g1 := (g.addClass toExpand CLASS_EXPANDED).addClass toExpand CLASS_PROTECTED
    let expandedIds := toExpand.map VizId.fromId
    let neighbourhood := getNeighbourhood env expandedIds
    let g2 := (mergeToGraphUtil g1 (neighbourhood.map (fun n => nodeToElement n []))).1
    let nodes := ((neighbourhood.map (fun n => n.id)).filter
      (fun i => g2.elements.any (fun x => x.id == i))).dedup
    let edges := buildEdges env settings g2 nodes
    let r := mergeToGraphUtil g2 (edges.map edgeToElement)
    (some r.2, r.1, ⟨1, 2, 2, true⟩)

/-- `ObsidianStore.get`: the node descriptor of an id whose file exists and
is indexed, null otherwise. -/
def storeGet (env : Env) (nodeId : VizId) : Option NodeDefinition :=
  match getFile env nodeId with
  | none => none
  | some file =>
    match env.getFileCache file with
    | none => none
    | some _ => some (nodeFromFile file)

/-- Outcome of one `refreshNode` call: the resulting graph, the recomputed
(`correctEdges`) merge result, the edges the tail removed, the edges that were
attached to the node when the removal set was computed, whether the combined
structural-change notification fired, how many merge calls ran, and whether
the shared removal tail was reached. -/
structure RefreshResult where
  core : Core
  merged : List CyElement
  added : List CyElement
  removed : List CyElement
  attached : List CyElement
  graphChangedFired : Bool
  mergeCalls : Nat
  completedTail : Bool
deriving DecidableEq, Repr

/-- The shared tail of `refreshNode`: remove the edges attached to the node
that the recomputation no longer reports, keeping edges carrying the
`terminal-connection` class; notify once when anything was removed or added. -/
def refreshTail (g : Core) (nodeIds : List String) (correct : IMergedToGraph)
    (mergeCalls : Nat) : RefreshResult :=
  let attached := g.connectedEdges nodeIds
  let edgesToRemove :=
    (attached.filter (fun e => !(correct.merged.any (fun m => m.id == e.id)))).filter
      (fun e => !e.classes.contains "terminal-connection")
  let g1 := g.removeByIds (edgesToRemove.map (fun e => e.id))
  let fired := decide (edgesToRemove.length > 0) || decide (correct.added.length > 0)
  ⟨g1, correct.merged, correct.added, edgesToRemove, attached, fired, mergeCalls, true⟩

/-- The recompute step of the non-expanded refresh branch: merge the node
descriptor (carrying its `linkedNodeIds` positioning hint), requery the node,
rebuild its edges and merge them; returns the resulting graph, the requeried
node's ids, and the edge merge result (`correctEdges`). -/
def refreshRecompute (env : Env) (settings : Settings) (g : Core) (id : VizId)
    (file : TFile) (nodeDef : NodeDefinition) : Core × List String × IMergedToGraph :=
  let linkedNodeIds :=
    match env.getFileCache file with
    | some cache => (iterLinks cache).map (fun ref => (getOtherId env ref file.path).toId)
    | none => []
  let el := nodeToElement nodeDef linkedNodeIds
  let g1 := (mergeToGraphUtil g [el]).1
  let node1 := g1.idCollection id.toId
  let edges := buildEdges env settings g1 (node1.map (fun e => e.id))
  let r := mergeToGraphUtil g1 (edges.map edgeToElement)
  (r.1, node1.map (fun e => e.id), r.2)

/-- `ObsidianStore.refreshNode`: the per-id reaction to a change signal. When
the file is missing, the code removes the `$id` collection and notifies — the
JavaScript guard `if (node)` tests the collection object itself, which is
always truthy, so this runs even when the collection is empty — and returns.
When the node is expanded, re-expansion recomputes the edges; otherwise the
node descriptor (with its `linkedNodeIds` hint) and its outgoing edges are
recomputed and merged. The shared tail prunes stale unprotected edges. The
final content sentinel check only raises a presentation event and is not
modelled. -/
def refreshNode (env : Env) (settings : Settings) (g : Core) (id : VizId) : RefreshResult :=
  let idS := id.toId
  let node := g.idCollection idS
  match getFile env id with
  | none =>
    let g1 := g.removeByIds (node.map (fun e => e.id))
    ⟨g1, [], [], [], [], true, 0, false⟩
  | some file =>
    if decide (node.length > 0) && node.any (fun e => e.classes.contains CLASS_EXPANDED) then
      let r := expand env settings g (node.map (fun e => e.id)) true false
      let correct := r.1.getD ⟨[], []⟩
      refreshTail r.2.1 (node.map (fun e => e.id)) correct 2
    else
      match storeGet env id with
      | none => ⟨g, [], [], [], [], false, 0, false⟩
      | some nodeDef =>
        let rr := refreshRecompute env settings g id file nodeDef
        refreshTail rr.1 rr.2.1 rr.2.2 2

/-! Shared sample corpora used by concrete witnesses. -/

/-- Sample file `A.md`. -/
def fileA : TFile := ⟨"A.md", "A.md", "md"⟩

/-- Sample file `B.md`. -/
def fileB : TFile := ⟨"B.md", "B.md", "md"⟩

/-- Sample corpus: `A.md` declares one front-matter link to `B.md` under the
dotted key `related.sibling`. -/
def envFm : Env := ⟨[fileA, fileB], [("A.md", ⟨[], [⟨"B.md", "related.sibling"⟩]⟩)], [], []⟩

/-- Sample corpus: `A.md` carries two untyped inline references to `B.md`
with contexts "A" and "B". -/
def envInline2 : Env :=
  ⟨[fileA, fileB], [("A.md", ⟨[⟨"B.md", none, "A"⟩, ⟨"B.md", none, "B"⟩], []⟩)], [], []⟩

/-- View settings with edge merging off. -/
def settingsNoMerge : Settings := ⟨false, "-"⟩

/-- View settings with edge merging on. -/
def settingsMerge : Settings := ⟨true, "-"⟩

/-! Characterization of the merge phase. -/

/-- The separator-joined concatenation of a list of contexts, first context
first. -/
def joinContexts : List String → String
  | [] => ""
  | c :: rest => rest.foldl (fun a b => a ++ mergeSep ++ b) c

/-- An edge with its context replaced. -/
def withContext (ie : EdgeDefinition) (ctx : String) : EdgeDefinition :=
  { ie with data := { ie.data with context := ctx } }

/-- An edge with its context and count replaced. -/
def withContextCount (ie : EdgeDefinition) (ctx : String) (n : Nat) : EdgeDefinition :=
  { ie with data := { ie.data with context := ctx, edgeCount := n } }

/-- The fold by which the merge phase accumulates inline contexts. -/
def ctxFold (init : String) (es : List EdgeDefinition) : String :=
  es.foldl (fun a e => a ++ mergeSep ++ e.data.context) init

theorem mergeGroupLoop_some (es : List EdgeDefinition) :
    ∀ (ie : EdgeDefinition) (n : Nat) (out : List EdgeDefinition),
    mergeGroupLoop es (some (ie, n)) out =
      (out ++ es.filter (fun e => !isInline e),
       some (withContext ie (ctxFold ie.data.context (es.filter isInline)),
         n + (es.filter isInline).length)) := by
  induction es with
  | nil => intro ie n out; simp [mergeGroupLoop, withContext, ctxFold]
  | cons e rest ih =>
    intro ie n out
    by_cases h : isInline e
    · simp only [mergeGroupLoop, h, if_pos, ih]
      simp [h, withContext, ctxFold]
      omega
    · simp only [mergeGroupLoop, h, Bool.false_eq_true, if_false, ih]
      simp [h]

theorem mergeGroupLoop_none (es : List EdgeDefinition) :
    ∀ out, mergeGroupLoop es none out =
      (out ++ es.filter (fun e => !isInline e),
       match es.filter isInline with
       | [] => none
       | ie :: restInl =>
         some (withContext ie (ctxFold ie.data.context restInl), 1 + restInl.length)) := by
  induction es with
  | nil => intro out; simp [mergeGroupLoop]
  | cons e rest ih =>
    intro out
    by_cases h : isInline e
    · simp only [mergeGroupLoop, h, if_pos, mergeGroupLoop_some]
      simp [h, Nat.add_comm]
    · simp only [mergeGroupLoop, h, Bool.false_eq_true, if_false, ih]
      simp [h]

theorem mergeGroup_eq (es : List EdgeDefinition) :
    mergeGroup es =
      es.filter (fun e => !isInline e) ++
      (match es.filter isInline with
       | [] => []
       | ie :: restInl =>
         [withContextCount ie (ctxFold ie.data.context restInl) (1 + restInl.length)]) := by
  unfold mergeGroup
  rw [mergeGroupLoop_none]
  cases h : es.filter isInline with
  | nil => simp
  | cons ie restInl => simp [withContext, withContextCount]

/-- C10: calling `expand` with an empty node collection returns null and
performs no graph mutation — no classes added, no neighbourhood fetched, no
merge, no `expand` event. -/
theorem claim_c10_expand_empty_noop (env : Env) (settings : Settings) (g : Core)
    (b t : Bool) : expand env settings g [] b t = (none, g, ⟨0, 0, 0, false⟩) := rfl

/-- C3: with merging enabled, per (source, target) group the untyped inline
edges collapse into exactly one descriptor whose count is the number of
inline edges merged and whose context is the separator-joined concatenation
of the contributors' contexts in insertion order, while non-inline (typed)
edges pass through unmerged; concretely, two inline edges with contexts "A"
and "B" yield one edge of count 2 whose context holds "A" then "B". -/
theorem claim_c3_edge_merge_law :
    (∀ es : List EdgeDefinition,
      mergeGroup es =
        es.filter (fun e => !isInline e) ++
        (match es.filter isInline with
         | [] => []
         | ie :: restInl =>
           [withContextCount ie (joinContexts ((ie :: restInl).map (fun e => e.data.context)))
              (1 + restInl.length)])) ∧
    createEdges envInline2 settingsMerge fileA "core A.md" ["core B.md"] =
      [⟨⟨"core A.md->core B.md1", "core A.md", "core B.md", "A" ++ mergeSep ++ "B", 2, none⟩,
        .str " inline"⟩] := by
  constructor
  · intro es
    rw [mergeGroup_eq]
    cases h : es.filter isInline with
    | nil => rfl
    | cons ie restInl => simp [joinContexts, ctxFold, List.foldl_map]
  · decide

/-- C1 fails as stated: for the front-matter key `related.sibling` the code
derives the type from all segments but the last (`split.slice(0, -1).join()`),
so the display type is "related", not the last segment "sibling". -/
theorem claim_c1_counterexample :
    ((createEdges envFm settingsNoMerge fileA "core A.md" ["core B.md"]).map
        (fun e => e.data.type?) = [some "related"]) ∧
    ("related" : String) ≠ "sibling" := by
  constructor
  · decide
  · decide

/-- The relation type the front-matter branch derives from a key: every
segment but the last, joined by `join()`'s default comma, when the key has
more than one segment; the key itself otherwise. -/
def frontmatterTypeOf (key : String) : String :=
  if (splitKey key).length > 1 then joinWith "," (splitKey key).dropLast else key

/-- C1 (amended): a front-matter reference under a dotted key with more than
one segment derives its relation type from every segment except the last,
comma-joined (a bare key yields the key itself); the display type renders
underscores as spaces while all CSS classes keep the untransformed token
(the third with spaces turned into dashes). -/
theorem claim_c1_frontmatter_type (env : Env) (settings : Settings) (file : TFile)
    (srcId : String) (toNodes : List String) (link key : String)
    (h1 : file.extension = "md")
    (h2 : env.getFileCache file = some ⟨[], [⟨link, key⟩]⟩)
    (h3 : toNodes.contains (getOtherId env (.fm ⟨link, key⟩) file.path).toId = true) :
    createEdges env settings file srcId toNodes =
      [⟨⟨srcId ++ "->" ++ (getOtherId env (.fm ⟨link, key⟩) file.path).toId ++ "1", srcId,
          (getOtherId env (.fm ⟨link, key⟩) file.path).toId, "", 1,
          some (transformEdgeLabel (frontmatterTypeOf key))⟩,
        .arr [frontmatterTypeOf key, "type-" ++ frontmatterTypeOf key,
          "type-" ++ replaceChar ' ' '-' (frontmatterTypeOf key)]⟩] := by
  have hts : (toString (1 : Nat)) = "1" := rfl
  have hne : ¬ (file.extension ≠ "md") := by simp [h1]
  unfold createEdges
  rw [if_neg hne, h2]
  simp only [iterLinks, List.map_nil, List.map_cons, List.nil_append, createEdgesLoop, h3,
    if_pos]
  simp only [lookupGroup, List.find?_nil, Option.map_none, Option.getD_none, List.length_nil,
    pushEdge, createEdgesLoop]
  cases hm : settings.mergeEdges with
  | false =>
    simp [buildRefEdge, frontmatterTypeOf, hts]
  | true =>
    simp [mergeGroup_eq, buildRefEdge, isInline, frontmatterTypeOf, hts, withContextCount,
      ctxFold, joinContexts]

/-- Witness for C1: the amended theorem applied to the sample corpus with the
front-matter key `related.sibling`. -/
theorem claim_c1_witness :
    (fileA.extension = "md") ∧
    (envFm.getFileCache fileA = some ⟨[], [⟨"B.md", "related.sibling"⟩]⟩) ∧
    ((["core B.md"].contains
        (getOtherId envFm (.fm ⟨"B.md", "related.sibling"⟩) fileA.path).toId) = true) ∧
    createEdges envFm settingsNoMerge fileA "core A.md" ["core B.md"] =
      [⟨⟨"core A.md->core B.md1", "core A.md", "core B.md", "", 1, some "related"⟩,
        .arr ["related", "type-related", "type-related"]⟩] :=
  ⟨rfl, by decide, by decide,
    claim_c1_frontmatter_type envFm settingsNoMerge fileA "core A.md" ["core B.md"]
      "B.md" "related.sibling" rfl (by decide) (by decide)⟩

/-- Left cancellation of string concatenation. -/
theorem string_append_left_cancel (p a b : String) (h : p ++ a = p ++ b) : a = b := by
  apply String.ext
  have hd := congrArg String.data h
  rw [String.data_append, String.data_append] at hd
  exact List.append_cancel_left hd

/-- C6: a link whose target does not resolve yields the placeholder id built
from the normalized link path and the store tag; that id differs from the
serialized id of every real corpus document, and resolving the same link text
from the same source path again yields the same id. -/
theorem claim_c6_dangling_resolution (env : Env) (ref : Ref) (sourcePath : String)
    (h : env.getFirstLinkpathDest (getLinkpath ref.link) sourcePath = none) :
    getOtherId env ref sourcePath = getOtherId env ref sourcePath ∧
    getOtherId env ref sourcePath = ⟨getLinkpath ref.link, obsidianStoreId⟩ ∧
    ∀ f ∈ env.files,
      (getOtherId env ref sourcePath).toId ≠ (VizId.mk f.name obsidianStoreId).toId := by
  have he : getOtherId env ref sourcePath = ⟨getLinkpath ref.link, obsidianStoreId⟩ := by
    simp [getOtherId, h]
  refine ⟨rfl, he, ?_⟩
  intro f hf heq
  have h2 := List.find?_eq_none.mp h f hf
  simp only [beq_iff_eq] at h2
  rw [he] at heq
  simp only [VizId.toId] at heq
  exact h2 (string_append_left_cancel _ _ _ heq).symm

/-- Witness for C6: the dangling link "Nowhere" against the sample corpus. -/
theorem claim_c6_witness :
    (envFm.getFirstLinkpathDest (getLinkpath (Ref.body ⟨"Nowhere", none, ""⟩).link) "" = none) ∧
    (getOtherId envFm (.body ⟨"Nowhere", none, ""⟩) "" = ⟨"Nowhere", obsidianStoreId⟩) ∧
    ∀ f ∈ envFm.files,
      (getOtherId envFm (.body ⟨"Nowhere", none, ""⟩) "").toId ≠
        (VizId.mk f.name obsidianStoreId).toId :=
  ⟨by decide,
   (claim_c6_dangling_resolution envFm (.body ⟨"Nowhere", none, ""⟩) "" (by decide)).2.1,
   (claim_c6_dangling_resolution envFm (.body ⟨"Nowhere", none, ""⟩) "" (by decide)).2.2⟩

/-! Lemmas about the id-keyed merge loop. -/

theorem mergeLoop_elements_ext :
    ∀ (els : List CyElement) (g : Core) (r : IMergedToGraph),
    ∃ t, (mergeLoop g r els).1.elements = g.elements ++ t := by
  intro els
  induction els with
  | nil => intro g r; exact ⟨[], by simp [mergeLoop]⟩
  | cons el rest ih =>
    intro g r
    unfold mergeLoop
    cases hf : g.elements.find? (fun x => x.id == el.id) with
    | some old => exact ih g _
    | none =>
      obtain ⟨t, ht⟩ := ih ⟨g.elements ++ [el]⟩ ⟨r.merged ++ [el], r.added ++ [el]⟩
      exact ⟨el :: t, by simpa using ht⟩

theorem mergeLoop_id_present :
    ∀ (els : List CyElement) (g : Core) (r : IMergedToGraph) (e : CyElement), e ∈ els →
    ∃ x, x ∈ (mergeLoop g r els).1.elements ∧ x.id = e.id := by
  intro els
  induction els with
  | nil => intro g r e he; cases he
  | cons el rest ih =>
    intro g r e he
    unfold mergeLoop
    cases hf : g.elements.find? (fun x => x.id == el.id) with
    | some old =>
      rcases List.mem_cons.mp he with rfl | hrest
      · obtain ⟨t, ht⟩ := mergeLoop_elements_ext rest g { r with merged := r.merged ++ [old] }
        refine ⟨old, ?_, ?_⟩
        · rw [ht]
          exact List.mem_append_left _ (List.mem_of_find?_eq_some hf)
        · have := List.find?_some hf
          simpa [beq_iff_eq] using this
      · exact ih g _ e hrest
    | none =>
      rcases List.mem_cons.mp he with rfl | hrest
      · obtain ⟨t, ht⟩ :=
          mergeLoop_elements_ext rest ⟨g.elements ++ [e]⟩ ⟨r.merged ++ [e], r.added ++ [e]⟩
        refine ⟨e, ?_, rfl⟩
        rw [ht]
        exact List.mem_append_left _ (by simp)
      · exact ih ⟨g.elements ++ [el]⟩ ⟨r.merged ++ [el], r.added ++ [el]⟩ e hrest

theorem mergeLoop_all_present :
    ∀ (els : List CyElement) (g : Core) (r : IMergedToGraph),
    (∀ e ∈ els, ∃ x ∈ g.elements, x.id = e.id) →
    (mergeLoop g r els).1 = g ∧ (mergeLoop g r els).2.added = r.added := by
  intro els
  induction els with
  | nil => intro g r _; exact ⟨rfl, rfl⟩
  | cons el rest ih =>
    intro g r hall
    obtain ⟨x, hx, hid⟩ := hall el (List.mem_cons_self el rest)
    have hsome : (g.elements.find? (fun y => y.id == el.id)).isSome := by
      rw [List.find?_isSome]
      exact ⟨x, hx, by simp [hid]⟩
    unfold mergeLoop
    cases hf : g.elements.find? (fun y => y.id == el.id) with
    | none => rw [hf] at hsome; cases hsome
    | some old => exact ih g _ (fun e he => hall e (List.mem_cons_of_mem el he))

/-- C2: merging the same batch twice leaves the live graph unchanged after
the second merge — the first merge only appends genuinely new elements after
the untouched existing ones, the second merge changes nothing and reports an
empty `added` set. -/
theorem claim_c2_merge_idempotent (g : Core) (els : List CyElement) :
    (∃ t, (Juggl.mergeToGraph g els).1.elements = g.elements ++ t) ∧
    (Juggl.mergeToGraph (Juggl.mergeToGraph g els).1 els).1 = (Juggl.mergeToGraph g els).1 ∧
    (Juggl.mergeToGraph (Juggl.mergeToGraph g els).1 els).2.1.added = [] := by
  have hext := mergeLoop_elements_ext els g ⟨[], []⟩
  have hall : ∀ e ∈ els, ∃ x ∈ (mergeLoop g ⟨[], []⟩ els).1.elements, x.id = e.id := by
    intro e he
    obtain ⟨x, hx, hid⟩ := mergeLoop_id_present els g ⟨[], []⟩ e he
    exact ⟨x, hx, hid⟩
  have hnoop := mergeLoop_all_present els (mergeLoop g ⟨[], []⟩ els).1 ⟨[], []⟩ hall
  exact ⟨hext, hnoop.1, hnoop.2⟩

/-- Field law of the per-reference edge constructor: it stores exactly the
id, source and target it is given. -/
theorem buildRefEdge_fields (content : List String) (settings : Settings)
    (srcId otherId id : String) (ref : Ref) :
    (buildRefEdge content settings srcId otherId id ref).data.id = id ∧
    (buildRefEdge content settings srcId otherId id ref).data.source = srcId ∧
    (buildRefEdge content settings srcId otherId id ref).data.target = otherId := by
  cases ref with
  | body r => cases h : r.typed <;> simp [buildRefEdge, parseRefCache, h]
  | fm l => simp [buildRefEdge]

/-- Membership in the record after a push: either an untouched entry, or the
pushed key now carrying its previous list extended by the new edge. -/
theorem pushEdge_mem :
    ∀ (gs : EdgeGroups) (key : String) (e : EdgeDefinition) (p : String × List EdgeDefinition),
    p ∈ pushEdge gs key e → p ∈ gs ∨ p = (key, lookupGroup gs key ++ [e]) := by
  intro gs
  induction gs with
  | nil =>
    intro key e p hp
    simp only [pushEdge, List.mem_singleton] at hp
    right
    simp [lookupGroup, hp]
  | cons q rest ih =>
    obtain ⟨k, es⟩ := q
    intro key e p hp
    by_cases hk : (k == key) = true
    · simp only [pushEdge, hk, if_true] at hp
      rcases List.mem_cons.mp hp with rfl | hm
      · right
        have hkey : k = key := by simpa using hk
        subst hkey
        simp [lookupGroup, List.find?_cons]
      · left
        exact List.mem_cons_of_mem _ hm
    · simp only [pushEdge, hk, Bool.false_eq_true, if_false] at hp
      rcases List.mem_cons.mp hp with rfl | hm
      · left
        exact List.mem_cons_self _ _
      · rcases ih key e p hm with h1 | h2
        · left
          exact List.mem_cons_of_mem _ h1
        · right
          rw [h2]
          simp [lookupGroup, List.find?_cons, hk]

/-- Invariant of the edge record built by the `createEdges` loop: within each
entry, the j-th edge's id is the pair key followed by the occurrence count
j+1, every edge's source is the requesting id, the key is exactly
source ++ "->" ++ target, and every target passed the membership test. -/
def GroupsOk (srcId : String) (toNodes : List String) (gs : EdgeGroups) : Prop :=
  ∀ p ∈ gs,
    (p.2.map (fun e => e.data.id) =
      (List.range p.2.length).map (fun j => p.1 ++ toString (j + 1))) ∧
    ∀ e ∈ p.2, e.data.source = srcId ∧ p.1 = srcId ++ "->" ++ e.data.target ∧
      toNodes.contains e.data.target = true

/-- A push of the freshly built edge (with the occurrence-counter id the loop
computes) preserves the record invariant. -/
theorem groupsOk_push (srcId : String) (toNodes : List String) (gs : EdgeGroups)
    (content : List String) (settings : Settings) (otherId : String) (ref : Ref)
    (inv : GroupsOk srcId toNodes gs) (hco : toNodes.contains otherId = true) :
    GroupsOk srcId toNodes (pushEdge gs (srcId ++ "->" ++ otherId)
      (buildRefEdge content settings srcId otherId
        (srcId ++ "->" ++ otherId ++
          toString ((lookupGroup gs (srcId ++ "->" ++ otherId)).length + 1)) ref)) := by
  intro p hp
  set key := srcId ++ "->" ++ otherId with hkeydef
  set e := buildRefEdge content settings srcId otherId
    (key ++ toString ((lookupGroup gs key).length + 1)) ref with hedef
  obtain ⟨hid, hsrc, htgt⟩ := buildRefEdge_fields content settings srcId otherId
    (key ++ toString ((lookupGroup gs key).length + 1)) ref
  rcases pushEdge_mem gs key e p hp with hmem | rfl
  · exact inv p hmem
  · have holdok : lookupGroup gs key = [] ∨
        ((lookupGroup gs key).map (fun x => x.data.id) =
          (List.range (lookupGroup gs key).length).map (fun j => key ++ toString (j + 1))) ∧
        ∀ x ∈ lookupGroup gs key, x.data.source = srcId ∧
          key = srcId ++ "->" ++ x.data.target ∧ toNodes.contains x.data.target = true := by
      cases hf : gs.find? (fun q => q.1 == key) with
      | none => left; simp [lookupGroup, hf]
      | some q =>
        right
        have hqmem := List.mem_of_find?_eq_some hf
        have hqkey : q.1 = key := by simpa using List.find?_some hf
        have hlu : lookupGroup gs key = q.2 := by simp [lookupGroup, hf]
        have := inv q hqmem
        rw [hlu, ← hqkey]
        exact this
    constructor
    · simp only [List.map_append, List.length_append, List.map_cons, List.map_nil,
        List.length_cons, List.length_nil]
      rcases holdok with hnil | ⟨hids, _⟩
      · rw [hedef, hid, hnil]
        simp [List.range_succ]
      · rw [hids, hid]
        have : (lookupGroup gs key).length + (0 + 1) = (lookupGroup gs key).length + 1 := by omega
        rw [this, List.range_succ]
        simp
    · intro x hx
      rcases List.mem_append.mp hx with hold | hnew
      · rcases holdok with hnil | ⟨_, hflds⟩
        · rw [hnil] at hold
          cases hold
        · exact hflds x hold
      · have hx' : x = e := by simpa using hnew
        subst hx'
        exact ⟨hsrc, by rw [htgt], by rw [htgt]; exact hco⟩

/-- The loop preserves the record invariant. -/
theorem createEdgesLoop_groupsOk (env : Env) (settings : Settings) (srcPath srcId : String)
    (toNodes : List String) (content : List String) :
    ∀ (refs : List Ref) (gs : EdgeGroups), GroupsOk srcId toNodes gs →
    GroupsOk srcId toNodes (createEdgesLoop env settings srcPath srcId toNodes content refs gs) := by
  intro refs
  induction refs with
  | nil => intro gs h; simpa [createEdgesLoop] using h
  | cons ref rest ih =>
    intro gs h
    unfold createEdgesLoop
    by_cases hc : toNodes.contains (getOtherId env ref srcPath).toId = true
    · simp only [hc, if_true]
      exact ih _ (groupsOk_push srcId toNodes gs content settings
        (getOtherId env ref srcPath).toId ref h hc)
    · simp only [hc, if_false]
      exact ih _ h

/-- C9: edge extraction is deterministic — the embedded `createEdges` is a
function of the corpus and inputs — and each edge id is determined purely by
(source id, target id, within-pair occurrence index): the j-th edge recorded
for a pair key is the key followed by j+1, and the key is exactly
source ++ "->" ++ target. -/
theorem claim_c9_deterministic_ids (env : Env) (settings : Settings) (srcFile : TFile)
    (srcId : String) (toNodes : List String) :
    (createEdges env settings srcFile srcId toNodes =
      createEdges env settings srcFile srcId toNodes) ∧
    ∀ (refs : List Ref) (p : String × List EdgeDefinition),
      p ∈ createEdgesLoop env settings srcFile.path srcId toNodes
        (env.cachedRead srcFile) refs [] →
      (p.2.map (fun e => e.data.id) =
        (List.range p.2.length).map (fun j => p.1 ++ toString (j + 1))) ∧
      ∀ e ∈ p.2, e.data.source = srcId ∧ p.1 = srcId ++ "->" ++ e.data.target := by
  refine ⟨rfl, fun refs p hp => ?_⟩
  have h := createEdgesLoop_groupsOk env settings srcFile.path srcId toNodes
    (env.cachedRead srcFile) refs [] (fun p hp => absurd hp (List.not_mem_nil p)) p hp
  exact ⟨h.1, fun e he => ⟨(h.2 e he).1, (h.2 e he).2.1⟩⟩

/-- The edge-group list the C9 witness exhibits. -/
def sampleGroupEdges : List EdgeDefinition :=
  [⟨⟨"core A.md->core B.md1", "core A.md", "core B.md", "A", 1, none⟩, .str " inline"⟩,
   ⟨⟨"core A.md->core B.md2", "core A.md", "core B.md", "B", 1, none⟩, .str " inline"⟩]

/-- Witness for C9: the two inline references of the sample corpus produce
the pair group whose ids carry occurrence counters 1 and 2. -/
theorem claim_c9_witness :
    (("core A.md->core B.md", sampleGroupEdges) ∈
      createEdgesLoop envInline2 settingsMerge fileA.path "core A.md" ["core B.md"]
        (envInline2.cachedRead fileA)
        [.body ⟨"B.md", none, "A"⟩, .body ⟨"B.md", none, "B"⟩] []) ∧
    (sampleGroupEdges.map (fun e => e.data.id) =
      (List.range sampleGroupEdges.length).map
        (fun j => "core A.md->core B.md" ++ toString (j + 1))) := by
  refine ⟨by decide, ?_⟩
  exact ((claim_c9_deterministic_ids envInline2 settingsMerge fileA "core A.md"
    ["core B.md"]).2 [.body ⟨"B.md", none, "A"⟩, .body ⟨"B.md", none, "B"⟩]
    ("core A.md->core B.md", sampleGroupEdges) (by decide)).1

/-- Every edge `createEdges` returns has the requesting id as source and a
target that passed the candidate-set membership test. -/
theorem createEdges_mem (env : Env) (settings : Settings) (file : TFile) (srcId : String)
    (toNodes : List String) (e : EdgeDefinition)
    (he : e ∈ createEdges env settings file srcId toNodes) :
    e.data.source = srcId ∧ toNodes.contains e.data.target = true := by
  unfold createEdges at he
  by_cases hext : file.extension ≠ "md"
  · rw [if_pos hext] at he
    cases he
  · rw [if_neg hext] at he
    cases hc : env.getFileCache file with
    | none => rw [hc] at he; cases he
    | some cache =>
      rw [hc] at he
      have hinv := createEdgesLoop_groupsOk env settings file.path srcId toNodes
        (env.cachedRead file) (iterLinks cache) [] (fun p hp => absurd hp (List.not_mem_nil p))
      cases hm : settings.mergeEdges with
      | false =>
        rw [hm] at he
        simp only [Bool.false_eq_true, if_false] at he
        obtain ⟨l, hl, hel⟩ := List.mem_flatten.mp he
        obtain ⟨p, hps, rfl⟩ := List.mem_map.mp hl
        have h := (hinv p hps).2 e hel
        exact ⟨h.1, h.2.2⟩
      | true =>
        rw [hm] at he
        simp only [if_true] at he
        obtain ⟨l, hl, hel⟩ := List.mem_flatten.mp he
        obtain ⟨p, hps, rfl⟩ := List.mem_map.mp hl
        rw [mergeGroup_eq] at hel
        rcases List.mem_append.mp hel with hfil | hmer
        · have h := (hinv p hps).2 e (List.mem_of_mem_filter hfil)
          exact ⟨h.1, h.2.2⟩
        · cases hfi : p.2.filter isInline with
          | nil => rw [hfi] at hmer; cases hmer
          | cons ie restInl =>
            rw [hfi] at hmer
            have hee : e = withContextCount ie (ctxFold ie.data.context restInl)
                (1 + restInl.length) := by simpa using hmer
            have hiemem : ie ∈ p.2 := by
              refine List.mem_of_mem_filter (p := isInline) ?_
              rw [hfi]
              exact List.mem_cons_self ie restInl
            have h := (hinv p hps).2 ie hiemem
            rw [hee]
            exact ⟨h.1, h.2.2⟩

/-- Every edge one `connectNodes` loop iteration produces has the iterated
node's (re-serialized) id as source and a target from the given set. -/
theorem connectNodesFrom_mem (env : Env) (settings : Settings) (targets : List String)
    (s : String) (e : EdgeDefinition) (he : e ∈ connectNodesFrom env settings targets s) :
    e.data.source = (VizId.fromId s).toId ∧ targets.contains e.data.target = true := by
  simp only [connectNodesFrom] at he
  by_cases hs : ((VizId.fromId s).storeId == obsidianStoreId) = true
  · rw [if_pos hs] at he
    cases hf : getFile env (VizId.fromId s) with
    | some file =>
      rw [hf] at he
      exact createEdges_mem env settings file _ targets e he
    | none => rw [hf] at he; cases he
  · rw [if_neg hs] at he
    cases he

/-- C7: `connectNodes` is the concatenation of the new-node loop and the
other-node loop; every edge of the first has a new node as source and a
target among all nodes; every edge of the second has a non-new node as source
and a new node as target; hence an edge whose source is a new node occurs in
the result exactly as often as the first loop produced it — edges between two
new nodes are never double-counted by the second loop. -/
theorem claim_c7_connect_nodes (env : Env) (settings : Settings)
    (allNodes newNodes : List String)
    (wfAll : ∀ s ∈ allNodes, (VizId.fromId s).toId = s)
    (wfNew : ∀ s ∈ newNodes, (VizId.fromId s).toId = s) :
    connectNodes env settings allNodes newNodes =
      (newNodes.map (connectNodesFrom env settings allNodes)).flatten ++
      ((allNodes.filter (fun n => !newNodes.contains n)).map
        (connectNodesFrom env settings newNodes)).flatten ∧
    (∀ e ∈ (newNodes.map (connectNodesFrom env settings allNodes)).flatten,
      e.data.source ∈ newNodes ∧ allNodes.contains e.data.target = true) ∧
    (∀ e ∈ ((allNodes.filter (fun n => !newNodes.contains n)).map
        (connectNodesFrom env settings newNodes)).flatten,
      e.data.source ∈ allNodes ∧ e.data.source ∉ newNodes ∧
        newNodes.contains e.data.target = true) ∧
    (∀ e : EdgeDefinition, e.data.source ∈ newNodes →
      (connectNodes env settings allNodes newNodes).count e =
        ((newNodes.map (connectNodesFrom env settings allNodes)).flatten).count e) := by
  have hpart1 : ∀ e ∈ (newNodes.map (connectNodesFrom env settings allNodes)).flatten,
      e.data.source ∈ newNodes ∧ allNodes.contains e.data.target = true := by
    intro e he
    obtain ⟨l, hl, hel⟩ := List.mem_flatten.mp he
    obtain ⟨s, hsm, rfl⟩ := List.mem_map.mp hl
    obtain ⟨hsrc, htgt⟩ := connectNodesFrom_mem env settings allNodes s e hel
    rw [hsrc, wfNew s hsm]
    exact ⟨hsm, htgt⟩
  have hpart2 : ∀ e ∈ ((allNodes.filter (fun n => !newNodes.contains n)).map
      (connectNodesFrom env settings newNodes)).flatten,
      e.data.source ∈ allNodes ∧ e.data.source ∉ newNodes ∧
        newNodes.contains e.data.target = true := by
    intro e he
    obtain ⟨l, hl, hel⟩ := List.mem_flatten.mp he
    obtain ⟨s, hsm, rfl⟩ := List.mem_map.mp hl
    obtain ⟨hsall, hsnotnew⟩ := List.mem_filter.mp hsm
    obtain ⟨hsrc, htgt⟩ := connectNodesFrom_mem env settings newNodes s e hel
    rw [hsrc, wfAll s hsall]
    refine ⟨hsall, ?_, htgt⟩
    simpa using hsnotnew
  refine ⟨rfl, hpart1, hpart2, ?_⟩
  intro e hsrcnew
  have hzero : ((allNodes.filter (fun n => !newNodes.contains n)).map
      (connectNodesFrom env settings newNodes)).flatten.count e = 0 := by
    rw [List.count_eq_zero]
    intro hmem
    exact (hpart2 e hmem).2.1 hsrcnew
  show ((newNodes.map (connectNodesFrom env settings allNodes)).flatten ++
      ((allNodes.filter (fun n => !newNodes.contains n)).map
        (connectNodesFrom env settings newNodes)).flatten).count e = _
  rw [List.count_append, hzero, Nat.add_zero]

/-- Witness for C7: in the sample corpus with all nodes {A, B} and new node
{B}, the second loop's edge A→B has a non-new source and a new target. -/
theorem claim_c7_witness :
    (∀ s ∈ ["core A.md", "core B.md"], (VizId.fromId s).toId = s) ∧
    ((⟨⟨"core A.md->core B.md1", "core A.md", "core B.md", "A", 1, none⟩,
        .str " inline"⟩ : EdgeDefinition) ∈
      (((["core A.md", "core B.md"].filter (fun n => !(["core B.md"].contains n))).map
        (connectNodesFrom envInline2 settingsNoMerge ["core B.md"])).flatten)) ∧
    (("core A.md" : String) ∈ ["core A.md", "core B.md"] ∧
      ("core A.md" : String) ∉ ["core B.md"] ∧
      (["core B.md"].contains ("core B.md" : String)) = true) := by
  refine ⟨by decide, by decide, ?_⟩
  exact (claim_c7_connect_nodes envInline2 settingsNoMerge ["core A.md", "core B.md"]
    ["core B.md"] (by decide) (by decide)).2.2.1
    ⟨⟨"core A.md->core B.md1", "core A.md", "core B.md", "A", 1, none⟩, .str " inline"⟩
    (by decide)

/-! Key/value discipline of the neighbourhood record. -/

/-- Well-formedness of the node record: keys are pairwise distinct and every
value's descriptor id equals its key. -/
def RecOk (r : NodeRec) : Prop :=
  (r.map Prod.fst).Nodup ∧ ∀ p ∈ r, p.2.id = p.1

/-- A failed membership test means the key is absent. -/
theorem recHas_false_not_mem (r : NodeRec) (id : String) (h : recHas r id = false) :
    id ∉ r.map Prod.fst := by
  intro hm
  obtain ⟨p, hp, rfl⟩ := List.mem_map.mp hm
  have := List.any_eq_false.mp h p hp
  simp at this

/-- Appending a fresh key whose value carries it preserves well-formedness. -/
theorem recOk_append (r : NodeRec) (id : String) (n : NodeDefinition) (h : RecOk r)
    (hnot : recHas r id = false) (hn : n.id = id) : RecOk (r ++ [(id, n)]) := by
  constructor
  · rw [List.map_append, List.nodup_append]
    refine ⟨h.1, by simp, ?_⟩
    intro a ha hb
    simp only [List.map_cons, List.map_nil, List.mem_singleton] at hb
    subst hb
    exact recHas_false_not_mem r a hnot ha
  · intro p hp
    rcases List.mem_append.mp hp with hr | hs
    · exact h.2 p hr
    · have hps : p = (id, n) := by simpa using hs
      rw [hps, hn]

/-- The resolved node of a link carries exactly the id `getOtherId` derives
for the same link. -/
theorem getNodeFromLink_id (env : Env) (ref : Ref) (sourcePath : String) :
    (getNodeFromLink env ref sourcePath).id = (getOtherId env ref sourcePath).toId := by
  unfold getNodeFromLink getOtherId
  cases h : env.getFirstLinkpathDest (getLinkpath ref.link) sourcePath with
  | some f => simp [h, nodeFromFile]
  | none => simp [h, nodeDangling]

/-- Every entry the promise loop collects carries its key as descriptor id. -/
theorem promiseLoop_vals (env : Env) (filePath : String) (nodes : NodeRec) :
    ∀ (refs : List Ref) (pn : List (String × NodeDefinition)),
    (∀ p ∈ pn, p.2.id = p.1) →
    ∀ p ∈ promiseLoop env filePath nodes refs pn, p.2.id = p.1 := by
  intro refs
  induction refs with
  | nil => intro pn h p hp; exact h p hp
  | cons ref rest ih =>
    intro pn h p hp
    by_cases hhas : recHas nodes ((getOtherId env ref filePath).toId) = true
    · simp only [promiseLoop, hhas, if_true] at hp
      exact ih pn h p hp
    · simp only [promiseLoop, hhas, if_false] at hp
      refine ih _ ?_ p hp
      intro q hq
      by_cases hpn : recHas pn ((getOtherId env ref filePath).toId) = true
      · simp only [recSet, hpn, if_true] at hq
        obtain ⟨q0, hq0, rfl⟩ := List.mem_map.mp hq
        by_cases hkey : (q0.1 == (getOtherId env ref filePath).toId) = true
        · simp only [hkey, if_true]
          have hk2 : q0.1 = (getOtherId env ref filePath).toId := by simpa using hkey
          rw [getNodeFromLink_id, ← hk2]
        · simp only [hkey, Bool.false_eq_true, if_false]
          exact h q0 hq0
      · simp only [recSet, hpn, if_false] at hq
        rcases List.mem_append.mp hq with hold | hnew
        · exact h q hold
        · have hq2 : q = ((getOtherId env ref filePath).toId,
              getNodeFromLink env ref filePath) := by simpa using hnew
          rw [hq2, getNodeFromLink_id]

/-- Awaiting the promise record preserves well-formedness. -/
theorem addPromiseNodes_recOk :
    ∀ (pl : List (String × NodeDefinition)) (ns : NodeRec),
    RecOk ns → (∀ p ∈ pl, p.2.id = p.1) → RecOk (addPromiseNodes pl ns) := by
  intro pl
  induction pl with
  | nil => intro ns h _; exact h
  | cons q rest ih =>
    intro ns h hvals
    by_cases hhas : recHas ns q.1 = true
    · simp only [addPromiseNodes, hhas, if_true]
      exact ih ns h (fun p hp => hvals p (List.mem_cons_of_mem q hp))
    · simp only [addPromiseNodes, hhas, if_false]
      refine ih _ ?_ (fun p hp => hvals p (List.mem_cons_of_mem q hp))
      exact recOk_append ns q.1 q.2 h (by simpa using hhas)
        (hvals q (List.mem_cons_self q rest))

/-- The back-link scan preserves well-formedness. -/
theorem backlinkLoop_recOk (env : Env) (filePath : String) :
    ∀ (rl : List (String × List String)) (ns : NodeRec),
    RecOk ns → RecOk (backlinkLoop env filePath rl ns) := by
  intro rl
  induction rl with
  | nil => intro ns h; exact h
  | cons p rest ih =>
    intro ns h
    by_cases hc : p.2.contains filePath = true
    · cases hf : getAbstractFileByPath env p.1 with
      | some f =>
        by_cases hhas : recHas ns ((VizId.mk f.name obsidianStoreId).toId) = true
        · simp only [backlinkLoop, hc, hf, hhas, if_true]
          exact ih ns h
        · simp only [backlinkLoop, hc, hf, hhas, if_true, if_false]
          exact ih _ (recOk_append ns _ _ h (by simpa using hhas) rfl)
      | none =>
        simp only [backlinkLoop, hc, hf, if_true]
        exact ih ns h
    · simp only [backlinkLoop, hc, if_false]
      exact ih ns h

/-- `fillWithBacklinks` preserves well-formedness. -/
theorem fillWithBacklinks_recOk (env : Env) (nodes : NodeRec) (nodeId : VizId)
    (h : RecOk nodes) : RecOk (fillWithBacklinks env nodes nodeId) := by
  by_cases hs : (nodeId.storeId == "core") = true
  · cases hf : getFile env nodeId with
    | some f =>
      simp only [fillWithBacklinks, hs, hf, if_true]
      exact backlinkLoop_recOk env f.path env.resolvedLinks nodes h
    | none =>
      simp only [fillWithBacklinks, hs, hf, if_true]
      exact h
  · simp only [fillWithBacklinks, hs, if_false]
    exact h

/-- One requested id's processing preserves well-formedness. -/
theorem processNeighbourNode_recOk (env : Env) (nodeId : VizId) (ns : NodeRec)
    (h : RecOk ns) : RecOk (processNeighbourNode env nodeId ns) := by
  by_cases hs : (nodeId.storeId == obsidianStoreId) = true
  · cases hf : getFile env nodeId with
    | none =>
      simp only [processNeighbourNode, hs, hf, if_true]
      exact h
    | some file =>
      cases hc : env.getFileCache file with
      | none =>
        simp only [processNeighbourNode, hs, hf, hc, if_true]
        exact h
      | some cache =>
        have hname : file.name = nodeId.id := by
          have := List.find?_some hf
          simpa using this
        have hsid : nodeId.storeId = obsidianStoreId := by simpa using hs
        have hstep : RecOk (if recHas ns nodeId.toId = true then ns
            else ns ++ [(nodeId.toId, nodeFromFile file)]) := by
          by_cases hhas : recHas ns nodeId.toId = true
          · rw [if_pos hhas]; exact h
          · rw [if_neg hhas]
            refine recOk_append ns nodeId.toId (nodeFromFile file) h (by simpa using hhas) ?_
            simp [nodeFromFile, VizId.toId, hname, hsid]
        simp only [processNeighbourNode, hs, hf, hc, if_true]
        refine fillWithBacklinks_recOk env _ nodeId ?_
        refine addPromiseNodes_recOk _ _ hstep ?_
        exact promiseLoop_vals env file.path _ (iterLinks cache) []
          (by intro p hp; cases hp)
  · simp only [processNeighbourNode, hs, if_false]
    exact h

/-- The outer loop preserves well-formedness. -/
theorem neighbourhoodLoop_recOk (env : Env) :
    ∀ (ids : List VizId) (ns : NodeRec), RecOk ns → RecOk (neighbourhoodLoop env ids ns) := by
  intro ids
  induction ids with
  | nil => intro ns h; exact h
  | cons i rest ih =>
    intro ns h
    exact ih _ (processNeighbourNode_recOk env i ns h)

/-- The outer loop distributes over list concatenation. -/
theorem neighbourhoodLoop_append (env : Env) :
    ∀ (l1 l2 : List VizId) (ns : NodeRec),
    neighbourhoodLoop env (l1 ++ l2) ns =
      neighbourhoodLoop env l2 (neighbourhoodLoop env l1 ns) := by
  intro l1
  induction l1 with
  | nil => intro l2 ns; rfl
  | cons i rest ih => intro l2 ns; exact ih l2 (processNeighbourNode env i ns)

/-- A requested id whose file or structural metadata is missing leaves the
record untouched. -/
theorem processNeighbourNode_skip (env : Env) (badId : VizId) (ns : NodeRec)
    (h : getFile env badId = none ∨
      ∃ f, getFile env badId = some f ∧ env.getFileCache f = none) :
    processNeighbourNode env badId ns = ns := by
  by_cases hs : (badId.storeId == obsidianStoreId) = true
  · rcases h with hnone | ⟨f, hf, hc⟩
    · simp only [processNeighbourNode, hs, hnone, if_true]
    · simp only [processNeighbourNode, hs, hf, hc, if_true]
  · simp only [processNeighbourNode, hs, Bool.false_eq_true, if_false]

/-- C8: the node list `getNeighbourhood` returns carries pairwise distinct
descriptor ids even when an id is reachable along several paths, and a
requested id whose document or structural metadata is missing contributes no
nodes and raises no error (the embedding is total and skips it). -/
theorem claim_c8_neighbourhood_unique (env : Env) :
    (∀ nodeIds : List VizId,
      ((getNeighbourhood env nodeIds).map (fun n => n.id)).Nodup) ∧
    (∀ (pre post : List VizId) (badId : VizId),
      (getFile env badId = none ∨
        ∃ f, getFile env badId = some f ∧ env.getFileCache f = none) →
      getNeighbourhood env (pre ++ badId :: post) = getNeighbourhood env (pre ++ post)) := by
  constructor
  · intro nodeIds
    have h := neighbourhoodLoop_recOk env nodeIds [] ⟨List.nodup_nil, by intro p hp; cases hp⟩
    unfold getNeighbourhood
    have heq : ((neighbourhoodLoop env nodeIds []).map Prod.snd).map (fun n => n.id) =
        (neighbourhoodLoop env nodeIds []).map Prod.fst := by
      rw [List.map_map]
      exact List.map_congr_left (fun p hp => h.2 p hp)
    rw [heq]
    exact h.1
  · intro pre post badId h
    unfold getNeighbourhood
    rw [neighbourhoodLoop_append, neighbourhoodLoop_append]
    rw [show neighbourhoodLoop env (badId :: post) (neighbourhoodLoop env pre []) =
      neighbourhoodLoop env post
        (processNeighbourNode env badId (neighbourhoodLoop env pre [])) from rfl]
    rw [processNeighbourNode_skip env badId _ h]

/-- Witness for C8: requesting the absent id "Missing" alongside `A.md`
contributes nothing against the sample corpus. -/
theorem claim_c8_witness :
    (getFile envFm ⟨"Missing", "core"⟩ = none ∨
      ∃ f, getFile envFm ⟨"Missing", "core"⟩ = some f ∧ envFm.getFileCache f = none) ∧
    getNeighbourhood envFm ([⟨"A.md", "core"⟩] ++ ⟨"Missing", "core"⟩ :: []) =
      getNeighbourhood envFm ([⟨"A.md", "core"⟩] ++ []) :=
  ⟨Or.inl (by decide),
   (claim_c8_neighbourhood_unique envFm).2 [⟨"A.md", "core"⟩] [] ⟨"Missing", "core"⟩
     (Or.inl (by decide))⟩

/-- A one-node sample graph. -/
def coreA : Core := ⟨[{ isNode := true, id := "core A.md" }]⟩

/-- C4 shows a divergence: when the file of the refreshed id is missing and
no corresponding visual node exists, the refresh leaves the graph unchanged
and performs no merge, yet still fires the structural-change notification —
the JavaScript guard `if (node)` tests the always-truthy collection object
instead of its length. -/
theorem claim_c4_missing_file_always_notifies :
    refreshNode envFm settingsNoMerge coreA ⟨"Missing", "core"⟩ =
      ⟨coreA, [], [], [], [], true, 0, false⟩ := by decide

/-- Class updates do not change element ids. -/
theorem addClass_ids (g : Core) (ids : List String) (cls : String) :
    ((g.addClass ids cls).elements.map (fun e => e.id)) = g.elements.map (fun e => e.id) := by
  unfold Core.addClass
  rw [List.map_map]
  refine List.map_congr_left ?_
  intro e he
  by_cases h : e.id ∈ ids
  · simp [h]
  · simp [h]

/-- The merge loop preserves distinctness of element ids. -/
theorem mergeLoop_nodup :
    ∀ (els : List CyElement) (g : Core) (r : IMergedToGraph),
    (g.elements.map (fun e => e.id)).Nodup →
    ((mergeLoop g r els).1.elements.map (fun e => e.id)).Nodup := by
  intro els
  induction els with
  | nil => intro g r h; exact h
  | cons el rest ih =>
    intro g r h
    unfold mergeLoop
    cases hf : g.elements.find? (fun x => x.id == el.id) with
    | some old => exact ih g _ h
    | none =>
      refine ih _ _ ?_
      rw [List.map_append, List.nodup_append]
      refine ⟨h, by simp, ?_⟩
      intro a ha hb
      simp only [List.map_cons, List.map_nil, List.mem_singleton] at hb
      subst hb
      obtain ⟨x, hx, hxid⟩ := List.mem_map.mp ha
      have hne := List.find?_eq_none.mp hf x hx
      simp only [beq_iff_eq] at hne
      exact hne hxid

/-- Expansion preserves distinctness of element ids. -/
theorem expand_nodup (env : Env) (settings : Settings) (g : Core) (toExpand : List String)
    (b t : Bool) (h : (g.elements.map (fun e => e.id)).Nodup) :
    ((expand env settings g toExpand b t).2.1.elements.map (fun e => e.id)).Nodup := by
  by_cases he : (toExpand.length == 0) = true
  · simp only [expand, he, if_true]
    exact h
  · simp only [expand, he, if_false, mergeToGraphUtil]
    apply mergeLoop_nodup
    apply mergeLoop_nodup
    rw [addClass_ids, addClass_ids]
    exact h

/-- The recompute step preserves distinctness of element ids. -/
theorem refreshRecompute_nodup (env : Env) (settings : Settings) (g : Core) (id : VizId)
    (file : TFile) (nodeDef : NodeDefinition)
    (h : (g.elements.map (fun e => e.id)).Nodup) :
    ((refreshRecompute env settings g id file nodeDef).1.elements.map (fun e => e.id)).Nodup := by
  simp only [refreshRecompute, mergeToGraphUtil]
  apply mergeLoop_nodup
  apply mergeLoop_nodup
  exact h

/-- An edge (or node) outside the removed set, under pairwise-distinct ids,
survives a removal of edges by id. -/
theorem removeByIds_keep (g : Core) (removed : List CyElement)
    (hsub : ∀ f ∈ removed, f ∈ g.elements)
    (hedges : ∀ f ∈ removed, f.isNode = false)
    (hnodup : (g.elements.map (fun e => e.id)).Nodup)
    (e : CyElement) (hmem : e ∈ g.elements) (hedge : e.isNode = false)
    (hnotin : e ∉ removed) :
    e ∈ (g.removeByIds (removed.map (fun x => x.id))).elements := by
  have hinj := List.inj_on_of_nodup_map hnodup
  have hidnot : (removed.map (fun x => x.id)).contains e.id = false := by
    rw [List.contains_eq_any_beq, List.any_eq_false]
    intro a ha
    obtain ⟨f, hf, rfl⟩ := List.mem_map.mp ha
    simp only [beq_iff_eq]
    intro hc
    exact hnotin (hinj (hsub f hf) hmem hc.symm ▸ hf)
  have hremnodes : g.elements.filter (fun x => x.isNode &&
      (removed.map (fun y => y.id)).contains x.id) = [] := by
    rw [List.filter_eq_nil_iff]
    intro x hxmem hxp
    simp only [Bool.and_eq_true] at hxp
    obtain ⟨hxnode, hxin⟩ := hxp
    rw [List.contains_eq_any_beq] at hxin
    obtain ⟨y, hy, hyx⟩ := List.any_eq_true.mp hxin
    obtain ⟨f, hf, rfl⟩ := List.mem_map.mp hy
    have hfeq : f = x := hinj (hsub f hf) hxmem (Eq.symm (by simpa using hyx))
    have := hedges f hf
    rw [hfeq, hxnode] at this
    cases this
  show e ∈ (Core.removeByIds g (removed.map (fun x => x.id))).elements
  unfold Core.removeByIds
  rw [List.mem_filter]
  refine ⟨hmem, ?_⟩
  rw [hremnodes]
  simp only [List.map_nil, hidnot]
  simp [hedge]

/-- An element whose id was removed is gone. -/
theorem removeByIds_gone (g : Core) (ids : List String) (e : CyElement)
    (hin : ids.contains e.id = true) : e ∉ (g.removeByIds ids).elements := by
  intro hmem
  unfold Core.removeByIds at hmem
  have hp := (List.mem_filter.mp hmem).2
  rw [hin] at hp
  simp at hp

/-- Specification of the removal tail: the removal set is exactly the
attached edges absent from the recomputed merge that are not marked
`terminal-connection`; terminal attached edges survive into the resulting
graph; removed edges are gone from it. -/
theorem refreshTail_spec (g' : Core) (nodeIds : List String) (correct : IMergedToGraph)
    (mc : Nat) (hnodup : (g'.elements.map (fun e => e.id)).Nodup) :
    (refreshTail g' nodeIds correct mc).attached = g'.connectedEdges nodeIds ∧
    (refreshTail g' nodeIds correct mc).merged = correct.merged ∧
    ((refreshTail g' nodeIds correct mc).removed =
      ((g'.connectedEdges nodeIds).filter
        (fun e => !(correct.merged.any (fun m => m.id == e.id)))).filter
        (fun e => !e.classes.contains "terminal-connection")) ∧
    (∀ e ∈ g'.connectedEdges nodeIds, e.classes.contains "terminal-connection" = true →
      e ∈ (refreshTail g' nodeIds correct mc).core.elements) ∧
    (∀ e ∈ (refreshTail g' nodeIds correct mc).removed,
      e ∉ (refreshTail g' nodeIds correct mc).core.elements) := by
  have hsub : ∀ f ∈ (refreshTail g' nodeIds correct mc).removed, f ∈ g'.elements := by
    intro f hf
    exact (List.mem_filter.mp
      (List.mem_of_mem_filter (List.mem_of_mem_filter hf))).1
  have hedges : ∀ f ∈ (refreshTail g' nodeIds correct mc).removed, f.isNode = false := by
    intro f hf
    have := (List.mem_filter.mp
      (List.mem_of_mem_filter (List.mem_of_mem_filter hf))).2
    simp only [Bool.and_eq_true, Bool.not_eq_true'] at this
    exact this.1
  refine ⟨rfl, rfl, rfl, ?_, ?_⟩
  · intro e hatt hterm
    have hemem : e ∈ g'.elements := (List.mem_filter.mp hatt).1
    have heedge : e.isNode = false := by
      have := (List.mem_filter.mp hatt).2
      simp only [Bool.and_eq_true, Bool.not_eq_true'] at this
      exact this.1
    have hnotin : e ∉ (refreshTail g' nodeIds correct mc).removed := by
      intro hrem
      have := (List.mem_filter.mp hrem).2
      rw [hterm] at this
      simp at this
    exact removeByIds_keep g' _ hsub hedges hnodup e hemem heedge hnotin
  · intro e hrem
    refine removeByIds_gone g' _ e ?_
    rw [List.contains_eq_any_beq, List.any_eq_true]
    exact ⟨e.id, List.mem_map.mpr ⟨e, hrem, rfl⟩, by simp⟩

/-- Every completed refresh factors through the removal tail over a graph
whose element ids stay pairwise distinct. -/
theorem refreshNode_shape (env : Env) (settings : Settings) (g : Core) (id : VizId)
    (hdone : (refreshNode env settings g id).completedTail = true) :
    ∃ (g' : Core) (nodeIds : List String) (correct : IMergedToGraph) (mc : Nat),
      refreshNode env settings g id = refreshTail g' nodeIds correct mc ∧
      ((g.elements.map (fun e => e.id)).Nodup →
        (g'.elements.map (fun e => e.id)).Nodup) := by
  cases hf : getFile env id with
  | none =>
    exfalso
    simp only [refreshNode, hf] at hdone
    simp at hdone
  | some file =>
    by_cases hguard : (decide ((g.idCollection id.toId).length > 0) &&
        (g.idCollection id.toId).any (fun e => e.classes.contains CLASS_EXPANDED)) = true
    · refine ⟨(expand env settings g ((g.idCollection id.toId).map (fun e => e.id))
          true false).2.1,
        (g.idCollection id.toId).map (fun e => e.id),
        ((expand env settings g ((g.idCollection id.toId).map (fun e => e.id))
          true false).1).getD ⟨[], []⟩, 2, ?_, ?_⟩
      · simp only [refreshNode, hf, hguard, if_true]
      · intro h
        exact expand_nodup env settings g _ true false h
    · cases hsg : storeGet env id with
      | none =>
        exfalso
        simp only [refreshNode, hf, hguard, hsg, if_false] at hdone
        simp at hdone
      | some nodeDef =>
        refine ⟨(refreshRecompute env settings g id file nodeDef).1,
          (refreshRecompute env settings g id file nodeDef).2.1,
          (refreshRecompute env settings g id file nodeDef).2.2, 2, ?_, ?_⟩
        · simp only [refreshNode, hf, hguard, hsg, Bool.false_eq_true, if_false]
        · intro h
          exact refreshRecompute_nodup env settings g id file nodeDef h

/-- C5: on every refresh that reaches the removal tail, the removed edge set
is exactly the attached edges absent from the recomputed (merged) edge set
and not marked `terminal-connection`; attached terminal edges survive the
refresh, removed ones are gone. -/
theorem claim_c5_refresh_preserves_terminal (env : Env) (settings : Settings) (g : Core)
    (id : VizId)
    (hnodup : (g.elements.map (fun e => e.id)).Nodup)
    (hdone : (refreshNode env settings g id).completedTail = true) :
    ((refreshNode env settings g id).removed =
      ((refreshNode env settings g id).attached.filter
        (fun e => !((refreshNode env settings g id).merged.any
          (fun m => m.id == e.id)))).filter
        (fun e => !e.classes.contains "terminal-connection")) ∧
    (∀ e ∈ (refreshNode env settings g id).attached,
      e.classes.contains "terminal-connection" = true →
      e ∈ (refreshNode env settings g id).core.elements) ∧
    (∀ e ∈ (refreshNode env settings g id).removed,
      e ∉ (refreshNode env settings g id).core.elements) := by
  obtain ⟨g', nodeIds, correct, mc, heq, hnd⟩ := refreshNode_shape env settings g id hdone
  have hs := refreshTail_spec g' nodeIds correct mc (hnd hnodup)
  rw [heq]
  refine ⟨?_, ?_, hs.2.2.2.2⟩
  · rw [hs.1, hs.2.1, hs.2.2.1]
  · rw [hs.1]
    exact hs.2.2.2.1

/-- Sample corpus for the refresh witness: `A.md` exists and is indexed with
no references. -/
def envC5 : Env := ⟨[fileA], [("A.md", ⟨[], []⟩)], [], []⟩

/-- Sample graph for the refresh witness: nodes A and B, one ordinary edge
and one terminal-marked edge between them. -/
def coreC5 : Core :=
  ⟨[{ isNode := true, id := "core A.md" }, { isNode := true, id := "core B.md" },
    { isNode := false, id := "x1", source := "core A.md", target := "core B.md" },
    { isNode := false, id := "x2", source := "core A.md", target := "core B.md",
      classes := ["terminal-connection"] }]⟩

/-- Witness for C5: refreshing node A, whose recomputed edge set is empty,
keeps every attached terminal-marked edge in the graph. -/
theorem claim_c5_witness :
    ((coreC5.elements.map (fun e => e.id)).Nodup) ∧
    ((refreshNode envC5 settingsNoMerge coreC5 ⟨"A.md", "core"⟩).completedTail = true) ∧
    (∀ e ∈ (refreshNode envC5 settingsNoMerge coreC5 ⟨"A.md", "core"⟩).attached,
      e.classes.contains "terminal-connection" = true →
      e ∈ (refreshNode envC5 settingsNoMerge coreC5 ⟨"A.md", "core"⟩).core.elements) := by
  refine ⟨by decide, by decide, ?_⟩
  exact (claim_c5_refresh_preserves_terminal envC5 settingsNoMerge coreC5 ⟨"A.md", "core"⟩
    (by decide) (by decide)).2.1
